import Mathlib

/-!
Verification of the Nebula Studio frame compositor and timeline pipeline.

The definitions below are a shallow embedding of the repository's source
(`src/unnamed/part_000`).  Strings are modelled as Lean `String`s or as their
character lists (`List Char`); JavaScript numbers reaching the embedded code
are modelled as `ℚ` where only field arithmetic is involved and as `ℝ` where
trigonometry is involved.
-/

namespace NebulaStudio

/-- Character class of the regex `[\n\.!?]+` used by `splitSentences`
(src/unnamed/part_000 line 71). -/
def isSentenceSeparator (c : Char) : Bool :=
  c = '\n' || c = '.' || c = '!' || c = '?'

/-- Character class of the regex `\s` (JavaScript whitespace, ASCII range)
used by `wrapLines` (line 86) and by `String.prototype.trim` (line 72). -/
def isJsWhitespace (c : Char) : Bool :=
  c = ' ' || c = '\t' || c = '\n' || c = '\r' || c = '\x0b' || c = '\x0c'

/-- Core of `String.prototype.split` on a one-character-class regex with `+`:
a maximal run of separator characters is a single boundary, and a leading or
trailing run contributes an empty piece (as in JavaScript).  `inRun` records
whether the previous character belonged to a separator run; `acc` holds the
current piece reversed (it is `[]` whenever `inRun` is `true`). -/
def splitOnRunsAux (p : Char → Bool) : Bool → List Char → List Char → List (List Char)
  | _, acc, [] => [acc.reverse]
  | inRun, acc, c :: cs =>
    if p c then
      if inRun then splitOnRunsAux p true acc cs
      else acc.reverse :: splitOnRunsAux p true [] cs
    else splitOnRunsAux p false (c :: acc) cs

/-- JavaScript `s.split(/[c]+/)` for the character class `p`. -/
def jsSplitOn (p : Char → Bool) (s : List Char) : List (List Char) :=
  splitOnRunsAux p false [] s

/-- JavaScript `String.prototype.trim`: drop whitespace from both ends. -/
def trimChars (l : List Char) : List Char :=
  ((l.dropWhile isJsWhitespace).reverse.dropWhile isJsWhitespace).reverse

/-- Function `splitSentences` (lines 69-74): split the input on runs of `[\n.!?]`,
trim each piece, and keep the non-empty ones (`filter(Boolean)`). -/
def splitSentences (input : String) : List String :=
  ((jsSplitOn isSentenceSeparator input.data).map fun l =>
    String.mk (trimChars l)).filter fun s => s != ""

/-- The `VisualStyle` union type (lines 7-13). -/
inductive VisualStyle
  | cosmic | tropical | noir | sunrise | aqua | mono
deriving DecidableEq

/-- The `STYLE_PALETTES` record (lines 30-67), one ordered list of gradient
pairs per style. -/
def STYLE_PALETTES : VisualStyle → List (String × String)
  | .cosmic =>
    [("#1b0033", "#5c00b3"), ("#0b1a4a", "#170e75"),
     ("#2a0a4a", "#4a117a"), ("#05010f", "#2d1c7a")]
  | .tropical =>
    [("#ff8a5c", "#ffd452"), ("#ff6b6b", "#ffd166"),
     ("#ffbe0b", "#ffb4a2"), ("#ff9f1c", "#ffbf69")]
  | .noir =>
    [("#0b0b0b", "#1f1f1f"), ("#111111", "#2b2b2b"),
     ("#090909", "#202020"), ("#131313", "#292929")]
  | .sunrise =>
    [("#ff758f", "#ffe2e2"), ("#ff9b73", "#ffc773"),
     ("#ff6f91", "#ff9671"), ("#f9ada0", "#f8ede3")]
  | .aqua =>
    [("#003f5c", "#2f4b7c"), ("#005377", "#3185fc"),
     ("#2f4b7c", "#00b8a9"), ("#1f4068", "#2a9d8f")]
  | .mono =>
    [("#111827", "#374151"), ("#0f172a", "#1f2937"),
     ("#18181b", "#27272a"), ("#1a202c", "#2d3748")]

/-- The `TimelineSlice` interface (lines 21-25). -/
structure TimelineSlice where
  sentence : String
  index : ℕ
  palette : String × String
deriving DecidableEq

/-- Lookup `palettes[index % palettes.length]` for a style's palette list: the
gradient pair assigned to scene `i` (line 81). -/
def paletteFor (style : VisualStyle) (i : ℕ) : String × String :=
  (STYLE_PALETTES style).getD (i % (STYLE_PALETTES style).length) ("", "")

/-- The body of `sentences.map((sentence, index) => ...)` in
`createPaletteTimeline` (lines 78-82), with the running index explicit. -/
def createPaletteTimelineAux (palettes : List (String × String)) :
    List String → ℕ → List TimelineSlice
  | [], _ => []
  | s :: rest, i =>
    ⟨s, i, palettes.getD (i % palettes.length) ("", "")⟩ ::
      createPaletteTimelineAux palettes rest (i + 1)

/-- Function `createPaletteTimeline` (lines 76-83). -/
def createPaletteTimeline (sentences : List String) (style : VisualStyle) :
    List TimelineSlice :=
  createPaletteTimelineAux (STYLE_PALETTES style) sentences 0

/-- Every character of a piece produced by `splitOnRunsAux` comes from the
accumulator or from the remaining input. -/
theorem mem_of_mem_splitOnRunsAux (p : Char → Bool) :
    ∀ (cs : List Char) (inRun : Bool) (acc l : List Char),
      l ∈ splitOnRunsAux p inRun acc cs → ∀ c ∈ l, c ∈ acc ∨ c ∈ cs := by
  intro cs
  induction cs with
  | nil =>
    intro inRun acc l hl c hc
    simp only [splitOnRunsAux, List.mem_singleton] at hl
    subst hl
    exact Or.inl (List.mem_reverse.mp hc)
  | cons c₀ cs ih =>
    intro inRun acc l hl c hc
    simp only [splitOnRunsAux] at hl
    by_cases hp : p c₀
    · simp only [hp, if_true] at hl
      cases inRun with
      | true =>
        simp only [if_true] at hl
        rcases ih true acc l hl c hc with h | h
        · exact Or.inl h
        · exact Or.inr (List.mem_cons_of_mem _ h)
      | false =>
        simp only [Bool.false_eq_true, if_false, List.mem_cons] at hl
        rcases hl with hl | hl
        · subst hl
          exact Or.inl (List.mem_reverse.mp hc)
        · rcases ih true [] l hl c hc with h | h
          · simp at h
          · exact Or.inr (List.mem_cons_of_mem _ h)
    · simp only [hp, if_false] at hl
      rcases ih false (c₀ :: acc) l hl c hc with h | h
      · rcases List.mem_cons.mp h with h | h
        · exact Or.inr (by simp [h])
        · exact Or.inl h
      · exact Or.inr (List.mem_cons_of_mem _ h)

/-- Trimming a string made of whitespace only leaves nothing. -/
theorem trimChars_eq_nil (l : List Char) (h : ∀ c ∈ l, isJsWhitespace c = true) :
    trimChars l = [] := by
  have h1 : l.dropWhile isJsWhitespace = [] := List.dropWhile_eq_nil_iff.mpr h
  simp [trimChars, h1]

/-- C3: `splitSentences` splits on runs of sentence punctuation and newlines,
trims each piece and discards empty ones, preserving order: the worked example
from the spec holds, whitespace-only input (in particular the empty string)
yields the empty list, and every returned sentence is non-empty. -/
theorem C3_splitSentences_segmentation :
    splitSentences "Hello world. This is great! Really?" =
        ["Hello world", "This is great", "Really"] ∧
      splitSentences "" = [] ∧
      (∀ s : String, (∀ c ∈ s.data, isJsWhitespace c = true) → splitSentences s = []) ∧
      (∀ s : String, ∀ t ∈ splitSentences s, t ≠ "") := by
  refine ⟨by decide, by decide, ?_, ?_⟩
  · intro s hs
    apply List.filter_eq_nil_iff.mpr
    intro t ht
    rcases List.mem_map.mp ht with ⟨l, hl, rfl⟩
    have hws : ∀ c ∈ l, isJsWhitespace c = true := by
      intro c hc
      rcases mem_of_mem_splitOnRunsAux isSentenceSeparator s.data false [] l hl c hc with
        h | h
      · simp at h
      · exact hs c h
    rw [trimChars_eq_nil l hws]
    decide
  · intro s t ht
    have := (List.mem_filter.mp ht).2
    simpa using this

/-- Closed instance of `C3_splitSentences_segmentation`: its quantified parts
evaluated on concrete inputs. -/
theorem C3_splitSentences_segmentation_witness :
    splitSentences "   \n  " = [] ∧ "Hello world" ≠ "" :=
  ⟨C3_splitSentences_segmentation.2.2.1 "   \n  " (by decide),
   C3_splitSentences_segmentation.2.2.2 "Hello world. This is great! Really?"
     "Hello world" (by decide)⟩

theorem createPaletteTimelineAux_length (p : List (String × String)) :
    ∀ (l : List String) (i0 : ℕ), (createPaletteTimelineAux p l i0).length = l.length := by
  intro l
  induction l with
  | nil => intro i0; rfl
  | cons s rest ih =>
    intro i0
    simp [createPaletteTimelineAux, ih]

theorem createPaletteTimelineAux_getElem? (p : List (String × String)) :
    ∀ (l : List String) (i0 i : ℕ),
      (createPaletteTimelineAux p l i0)[i]? =
        l[i]?.map fun s => ⟨s, i0 + i, p.getD ((i0 + i) % p.length) ("", "")⟩ := by
  intro l
  induction l with
  | nil => intro i0 i; simp [createPaletteTimelineAux]
  | cons s rest ih =>
    intro i0 i
    cases i with
    | zero => simp [createPaletteTimelineAux]
    | succ i =>
      simp only [createPaletteTimelineAux, List.getElem?_cons_succ, ih (i0 + 1) i]
      have h : i0 + 1 + i = i0 + (i + 1) := by omega
      rw [h]

/-- C4: `createPaletteTimeline` yields one slice per sentence, slice `i`
carrying `sentences[i]`, index `i`, and the style's palette at `i mod k`
(`k` the palette-list length); the palette assignment is `k`-cyclic. -/
theorem C4_createPaletteTimeline_scenes :
    ∀ (sentences : List String) (style : VisualStyle),
      (createPaletteTimeline sentences style).length = sentences.length ∧
      (∀ i : ℕ, (createPaletteTimeline sentences style)[i]? =
        sentences[i]?.map fun s => ⟨s, i, paletteFor style i⟩) ∧
      (∀ i : ℕ, paletteFor style i =
        paletteFor style (i % (STYLE_PALETTES style).length)) := by
  intro sentences style
  refine ⟨createPaletteTimelineAux_length _ sentences 0, ?_, ?_⟩
  · intro i
    have h := createPaletteTimelineAux_getElem? (STYLE_PALETTES style) sentences 0 i
    simpa [createPaletteTimeline, paletteFor] using h
  · intro i
    have h : i % (STYLE_PALETTES style).length % (STYLE_PALETTES style).length =
        i % (STYLE_PALETTES style).length := by simp
    simp [paletteFor, h]

/-- Whitespace-separated words of a character list (no empty words): captures
the claim's phrase "the input's whitespace-separated words".  `acc` is the
current word reversed. -/
def wordsAux : List Char → List Char → List (List Char)
  | [], acc => if acc.isEmpty then [] else [acc.reverse]
  | c :: cs, acc =>
    if isJsWhitespace c then
      if acc.isEmpty then wordsAux cs [] else acc.reverse :: wordsAux cs []
    else wordsAux cs (c :: acc)

/-- The whitespace-separated words of a character list. -/
def wordsOfChars (l : List Char) : List (List Char) :=
  wordsAux l []

/-- The loop of `wrapLines` (lines 89-100): greedy wrap of the word list into
lines, `line` being the line under construction.  The drawing context's
`measureText` is modelled as an arbitrary width function `measure`; strings
are modelled as character lists, `line + " " + word` becoming
`line ++ ' ' :: w`. -/
def wrapWordsAux (measure : List Char → ℚ) (maxWidth : ℚ) :
    List (List Char) → List Char → List (List Char)
  | [], line => if line.isEmpty then [] else [line]
  | w :: ws, line =>
    let tentative := if line.isEmpty then w else line ++ ' ' :: w
    if maxWidth < measure tentative ∧ ¬line.isEmpty then
      line :: wrapWordsAux measure maxWidth ws w
    else wrapWordsAux measure maxWidth ws tentative

/-- `wrapLines` (lines 85-102): split the text on `\s+` (JavaScript `split`,
which can yield empty edge words) and greedily wrap the words. -/
def wrapLines (measure : List Char → ℚ) (maxWidth : ℚ) (text : List Char) :
    List (List Char) :=
  wrapWordsAux measure maxWidth (jsSplitOn isJsWhitespace text) []

/-- Joining lines with single spaces (the claim's reading of the wrapped
output). -/
def joinWithSpace : List (List Char) → List Char
  | [] => []
  | [l] => l
  | l :: rest => l ++ ' ' :: joinWithSpace rest

/-- Splitting a word list at a whitespace character: the words of
`a ++ c :: b` are the words of `a` (closing the running accumulator) followed
by the words of `b`. -/
theorem wordsAux_append_ws (c : Char) (hc : isJsWhitespace c = true) (b : List Char) :
    ∀ (a acc : List Char), wordsAux (a ++ c :: b) acc = wordsAux a acc ++ wordsAux b [] := by
  intro a
  induction a with
  | nil =>
    intro acc
    by_cases h : acc.isEmpty <;> simp [wordsAux, hc, h]
  | cons c' a ih =>
    intro acc
    by_cases h : isJsWhitespace c'
    · by_cases ha : acc.isEmpty <;> simp [wordsAux, h, ha, ih]
    · simp [wordsAux, h, ih]

/-- `wordsAux` on a list without whitespace: the accumulator and the list
form the unique word (or no word when both are empty). -/
theorem wordsAux_of_no_ws :
    ∀ (w acc : List Char), (∀ c ∈ w, isJsWhitespace c = false) →
      wordsAux w acc = if (acc.reverse ++ w).isEmpty then [] else [acc.reverse ++ w] := by
  intro w
  induction w with
  | nil =>
    intro acc _
    cases acc <;> simp [wordsAux]
  | cons c w ih =>
    intro acc h
    have hc : isJsWhitespace c = false := h c (by simp)
    have hrest : ∀ c' ∈ w, isJsWhitespace c' = false := fun c' hc' => h c' (by simp [hc'])
    rw [wordsAux, if_neg (by simp [hc]), ih (c :: acc) hrest]
    simp

/-- The non-empty pieces of the JavaScript split are exactly the
whitespace-separated words. -/
theorem filter_splitOnRunsAux :
    ∀ (cs : List Char) (inRun : Bool) (acc : List Char), (inRun = true → acc = []) →
      (splitOnRunsAux isJsWhitespace inRun acc cs).filter (fun l => !l.isEmpty) =
        wordsAux cs acc := by
  intro cs
  induction cs with
  | nil =>
    intro inRun acc _
    cases acc <;> simp [splitOnRunsAux, wordsAux]
  | cons c cs ih =>
    intro inRun acc hacc
    by_cases hc : isJsWhitespace c
    · cases inRun with
      | true =>
        have : acc = [] := hacc rfl
        subst this
        simp only [splitOnRunsAux, hc, if_true, wordsAux]
        exact ih true [] fun _ => rfl
      | false =>
        simp only [splitOnRunsAux, hc, if_true, Bool.false_eq_true, if_false, wordsAux]
        rw [List.filter_cons]
        cases acc with
        | nil => simpa using ih true [] fun _ => rfl
        | cons a as => simpa using ih true [] fun _ => rfl
    · have hc' : isJsWhitespace c = false := by simpa using hc
      simp only [splitOnRunsAux, hc', Bool.false_eq_true, if_false, wordsAux]
      exact ih false (c :: acc) (by simp)

/-- Pieces produced by the split contain no separator character (when the
accumulator contains none). -/
theorem no_sep_of_mem_splitOnRunsAux (p : Char → Bool) :
    ∀ (cs : List Char) (inRun : Bool) (acc : List Char), (∀ c ∈ acc, p c = false) →
      ∀ l ∈ splitOnRunsAux p inRun acc cs, ∀ c ∈ l, p c = false := by
  intro cs
  induction cs with
  | nil =>
    intro inRun acc hacc l hl c hc
    simp only [splitOnRunsAux, List.mem_singleton] at hl
    subst hl
    exact hacc c (List.mem_reverse.mp hc)
  | cons c₀ cs ih =>
    intro inRun acc hacc l hl c hc
    simp only [splitOnRunsAux] at hl
    by_cases hp : p c₀
    · simp only [hp, if_true] at hl
      cases inRun with
      | true => exact ih true acc hacc l hl c hc
      | false =>
        simp only [Bool.false_eq_true, if_false, List.mem_cons] at hl
        rcases hl with hl | hl
        · subst hl
          exact hacc c (List.mem_reverse.mp hc)
        · exact ih true [] (by simp) l hl c hc
    · simp only [hp, if_false] at hl
      refine ih false (c₀ :: acc) ?_ l hl c hc
      intro x hx
      rcases List.mem_cons.mp hx with h | h
      · subst h; simpa using hp
      · exact hacc x h

/-- Words distribute over a single-space join of two pieces. -/
theorem wordsOfChars_append_space (a b : List Char) :
    wordsOfChars (a ++ ' ' :: b) = wordsOfChars a ++ wordsOfChars b :=
  wordsAux_append_ws ' ' (by decide) b a []

/-- Words distribute over joining lines with single spaces. -/
theorem wordsOfChars_joinWithSpace :
    ∀ lines : List (List Char),
      wordsOfChars (joinWithSpace lines) = (lines.map wordsOfChars).flatten := by
  intro lines
  induction lines with
  | nil => simp [joinWithSpace, wordsOfChars, wordsAux]
  | cons l rest ih =>
    cases rest with
    | nil => simp [joinWithSpace]
    | cons l' t =>
      rw [show joinWithSpace (l :: l' :: t) = l ++ ' ' :: joinWithSpace (l' :: t) from rfl,
        wordsOfChars_append_space, ih]
      simp

/-- The greedy wrap loop neither loses, duplicates nor reorders words: the
words of its output lines, concatenated, are the words of the pending line
followed by the words of the remaining (whitespace-free) input words. -/
theorem wrapWordsAux_words (measure : List Char → ℚ) (maxWidth : ℚ) :
    ∀ (wsl : List (List Char)) (line : List Char),
      (∀ w ∈ wsl, ∀ c ∈ w, isJsWhitespace c = false) →
      ((wrapWordsAux measure maxWidth wsl line).map wordsOfChars).flatten =
        wordsOfChars line ++ (wsl.map wordsOfChars).flatten := by
  intro wsl
  induction wsl with
  | nil =>
    intro line _
    by_cases h : line.isEmpty
    · have : line = [] := by simpa using h
      subst this
      simp [wrapWordsAux, wordsOfChars, wordsAux]
    · simp [wrapWordsAux, h]
  | cons w rest ih =>
    intro line hno
    have hw : ∀ c ∈ w, isJsWhitespace c = false := hno w (by simp)
    have hrest : ∀ v ∈ rest, ∀ c ∈ v, isJsWhitespace c = false :=
      fun v hv => hno v (by simp [hv])
    have htent : ∀ t, t = (if line.isEmpty then w else line ++ ' ' :: w) →
        wordsOfChars t = wordsOfChars line ++ wordsOfChars w := by
      intro t ht
      by_cases h : line.isEmpty
      · have : line = [] := by simpa using h
        subst this
        simp only [h, if_true] at ht
        subst ht
        simp [wordsOfChars, wordsAux]
      · simp only [h, Bool.false_eq_true, if_false] at ht
        subst ht
        unfold wordsOfChars
        exact wordsAux_append_ws ' ' (by decide) w line []
    simp only [wrapWordsAux]
    by_cases hcond : maxWidth < measure (if line.isEmpty then w else line ++ ' ' :: w) ∧
        ¬line.isEmpty
    · rw [if_pos hcond]
      simp only [List.map_cons, List.flatten_cons, ih w hrest]
    · rw [if_neg hcond]
      rw [ih _ hrest, htent _ rfl]
      simp

/-- Every line produced by the greedy wrap loop is non-empty: a line is only
pushed when truthy. -/
theorem ne_nil_of_mem_wrapWordsAux (measure : List Char → ℚ) (maxWidth : ℚ) :
    ∀ (wsl : List (List Char)) (line l : List Char),
      l ∈ wrapWordsAux measure maxWidth wsl line → l ≠ [] := by
  intro wsl
  induction wsl with
  | nil =>
    intro line l hl
    by_cases h : line.isEmpty
    · simp [wrapWordsAux, h] at hl
    · simp only [wrapWordsAux, h, Bool.false_eq_true, if_false, List.mem_singleton] at hl
      subst hl
      simpa using h
  | cons w rest ih =>
    intro line l hl
    simp only [wrapWordsAux] at hl
    by_cases hcond : maxWidth < measure (if line.isEmpty then w else line ++ ' ' :: w) ∧
        ¬line.isEmpty
    · rw [if_pos hcond] at hl
      rcases List.mem_cons.mp hl with h | h
      · subst h
        simpa using hcond.2
      · exact ih _ _ h
    · rw [if_neg hcond] at hl
      exact ih _ _ hl

/-- Splitting a list without separator characters yields it whole (with the
accumulator prepended). -/
theorem splitOnRunsAux_of_no_sep (p : Char → Bool) :
    ∀ (w acc : List Char), (∀ c ∈ w, p c = false) →
      splitOnRunsAux p false acc w = [acc.reverse ++ w] := by
  intro w
  induction w with
  | nil => intro acc _; simp [splitOnRunsAux]
  | cons c w ih =>
    intro acc h
    have hc : p c = false := h c (by simp)
    rw [splitOnRunsAux, if_neg (by simp [hc]), ih (c :: acc) fun c' hc' => h c' (by simp [hc'])]
    simp

/-- Flattening the words of whitespace-free pieces keeps exactly the
non-empty pieces. -/
theorem flatten_wordsOfChars_of_no_ws :
    ∀ chunks : List (List Char),
      (∀ l ∈ chunks, ∀ c ∈ l, isJsWhitespace c = false) →
      (chunks.map wordsOfChars).flatten = chunks.filter (fun l => !l.isEmpty) := by
  intro chunks
  induction chunks with
  | nil => intro _; rfl
  | cons l t ih =>
    intro h
    have hl : wordsOfChars l = if l.isEmpty then [] else [l] := by
      simpa using wordsAux_of_no_ws l [] (h l (by simp))
    rw [List.map_cons, List.flatten_cons, hl, ih fun v hv => h v (by simp [hv]),
      List.filter_cons]
    by_cases he : l.isEmpty <;> simp [he]

/-- C10: for every width function, maximum width and input text, the greedy
word wrap neither loses, duplicates, splits nor reorders words — joining the
returned lines with single spaces yields exactly the input's
whitespace-separated words in order — every returned line is non-empty, and a
single word wider than the maximum width is still emitted as its own line. -/
theorem C10_wrapLines_preserves_words :
    ∀ (measure : List Char → ℚ) (maxWidth : ℚ),
      (∀ text : List Char,
        (∀ l ∈ wrapLines measure maxWidth text, l ≠ []) ∧
        wordsOfChars (joinWithSpace (wrapLines measure maxWidth text)) =
          wordsOfChars text) ∧
      (∀ w : List Char, w ≠ [] → (∀ c ∈ w, isJsWhitespace c = false) →
        maxWidth < measure w → wrapLines measure maxWidth w = [w]) := by
  intro measure maxWidth
  constructor
  · intro text
    have hchunks : ∀ l ∈ jsSplitOn isJsWhitespace text, ∀ c ∈ l, isJsWhitespace c = false :=
      no_sep_of_mem_splitOnRunsAux isJsWhitespace text false [] (by simp)
    refine ⟨fun l hl => ne_nil_of_mem_wrapWordsAux measure maxWidth _ _ l hl, ?_⟩
    rw [wordsOfChars_joinWithSpace, wrapLines,
      wrapWordsAux_words measure maxWidth _ [] hchunks,
      flatten_wordsOfChars_of_no_ws _ hchunks, jsSplitOn,
      filter_splitOnRunsAux text false [] (by simp)]
    rfl
  · intro w hw hno _
    rw [wrapLines, jsSplitOn, splitOnRunsAux_of_no_sep isJsWhitespace w [] hno]
    simp only [List.nil_append, wrapWordsAux, List.isEmpty_nil, if_true, not_true,
      and_false, if_false]
    simp [List.isEmpty_eq_true, hw]

/-- Closed instance of `C10_wrapLines_preserves_words`: its quantified parts
evaluated at a concrete width function and text. -/
theorem C10_wrapLines_preserves_words_witness :
    "hello".data ≠ [] ∧
      wordsOfChars (joinWithSpace
        (wrapLines (fun l => (l.length : ℚ)) 7 "hello brave new world".data)) =
        wordsOfChars "hello brave new world".data ∧
      wrapLines (fun l => (l.length : ℚ)) 3 "hello".data = ["hello".data] :=
  ⟨((C10_wrapLines_preserves_words (fun l => (l.length : ℚ)) 7).1
      "hello brave new world".data).1 "hello".data (by decide),
   ((C10_wrapLines_preserves_words (fun l => (l.length : ℚ)) 7).1
      "hello brave new world".data).2,
   (C10_wrapLines_preserves_words (fun l => (l.length : ℚ)) 3).2 "hello".data
     (by decide) (by decide) (by norm_num)⟩

/-- Line 155, `segmentFrames = fps * settings.segmentSeconds`: the exact
JavaScript product, with no rounding and no lower bound.  JavaScript numbers
reaching this arithmetic are modelled as rationals. -/
def segmentFrames (fps segmentSeconds : ℚ) : ℚ :=
  fps * segmentSeconds

/-- Line 156, `totalFrames = segmentFrames * timeline.length`. -/
def totalFrames (fps segmentSeconds : ℚ) (sceneCount : ℕ) : ℚ :=
  segmentFrames fps segmentSeconds * sceneCount

/-- The frames-per-scene value the claim describes: the product rounded down
to an integer that is at least 1. -/
def claimedFramesPerScene (fps segmentSeconds : ℚ) : ℚ :=
  max 1 ((Int.floor (fps * segmentSeconds) : ℤ) : ℚ)

/-- C2 counterexample: at fps = 1, secondsPerScene = 1/2 (both admitted by the
claim's domain `framesPerSecond > 0`, `secondsPerScene > 0`) the code computes
1/2, not the claimed floored-and-clamped value 1. -/
theorem C2_counterexample_fractional_product :
    segmentFrames 1 (1 / 2) = 1 / 2 ∧ claimedFramesPerScene 1 (1 / 2) = 1 ∧
      ((1 : ℚ) / 2) ≠ 1 := by
  refine ⟨by norm_num [segmentFrames], ?_, by norm_num⟩
  have h : Int.floor ((1 : ℚ) * (1 / 2)) = 0 := by
    norm_num
  rw [claimedFramesPerScene, h]
  norm_num

/-- C2 (amended): `framesPerScene` is computed as the exact product
`framesPerSecond * secondsPerScene` with no flooring and no lower bound; on
the positive integer settings the UI supplies, this coincides with the
claimed floor-and-clamp and is at least 1, `totalFrames` is
`framesPerScene * sceneCount`, and for fps 24, 3 seconds per scene and 5
scenes it equals 360. -/
theorem C2_frame_counts (fps secs n : ℕ) (h1 : 1 ≤ fps) (h2 : 1 ≤ secs) :
    segmentFrames (fps : ℚ) (secs : ℚ) = ((fps * secs : ℕ) : ℚ) ∧
      1 ≤ segmentFrames (fps : ℚ) (secs : ℚ) ∧
      segmentFrames (fps : ℚ) (secs : ℚ) = claimedFramesPerScene (fps : ℚ) (secs : ℚ) ∧
      totalFrames (fps : ℚ) (secs : ℚ) n = ((fps * secs * n : ℕ) : ℚ) ∧
      totalFrames 24 3 5 = 360 := by
  have hprod : (1 : ℕ) ≤ fps * secs := Nat.one_le_iff_ne_zero.mpr (by positivity)
  refine ⟨by push_cast [segmentFrames]; ring, ?_, ?_, by push_cast [totalFrames, segmentFrames]; ring, by norm_num [totalFrames, segmentFrames]⟩
  · have : ((1 : ℕ) : ℚ) ≤ ((fps * secs : ℕ) : ℚ) := by exact_mod_cast hprod
    calc (1 : ℚ) = ((1 : ℕ) : ℚ) := by norm_num
      _ ≤ ((fps * secs : ℕ) : ℚ) := this
      _ = segmentFrames (fps : ℚ) (secs : ℚ) := by push_cast [segmentFrames]; ring
  · have hfloor : Int.floor ((fps : ℚ) * (secs : ℚ)) = (fps * secs : ℕ) := by
      rw [show ((fps : ℚ) * (secs : ℚ)) = ((fps * secs : ℕ) : ℚ) by push_cast; ring]
      exact Int.floor_natCast _
    rw [segmentFrames, claimedFramesPerScene, hfloor]
    rw [max_eq_right]
    · push_cast; ring
    · exact_mod_cast hprod

/-- Closed instance of `C2_frame_counts` at the spec's own example. -/
theorem C2_frame_counts_witness :
    totalFrames 24 3 5 = 360 ∧ 1 ≤ segmentFrames (24 : ℚ) (3 : ℚ) :=
  ⟨(C2_frame_counts 24 3 5 (by norm_num) (by norm_num)).2.2.2.2,
   (C2_frame_counts 24 3 5 (by norm_num) (by norm_num)).2.1⟩

/-- The frame loop of `renderTimelineToVideo` (lines 157, 166-240) as its
sequence of progress reports: `currentFrame` starts at 0; each iteration of
`while (currentFrame < totalFrames)` increments it and then reports
`currentFrame / totalFrames`.  The loop is embedded with explicit fuel; fuel
`totalFrames` is enough, the loop advancing one frame per iteration. -/
def renderLoopReports (total : ℕ) : ℕ → ℕ → List ℚ
  | 0, _ => []
  | fuel + 1, current =>
    if current < total then
      ((current : ℚ) + 1) / (total : ℚ) :: renderLoopReports total fuel (current + 1)
    else []

/-- The progress reports of one full render run with integer settings
(`totalFrames = fps * segmentSeconds * sceneCount`, lines 155-156). -/
def renderReports (fps segmentSeconds sceneCount : ℕ) : List ℚ :=
  renderLoopReports (fps * segmentSeconds * sceneCount)
    (fps * segmentSeconds * sceneCount) 0

theorem renderLoopReports_eq (total : ℕ) :
    ∀ (fuel current : ℕ), total ≤ current + fuel →
      renderLoopReports total fuel current =
        (List.range' current (total - current)).map
          fun k : ℕ => ((k : ℚ) + 1) / (total : ℚ) := by
  intro fuel
  induction fuel with
  | zero =>
    intro current h
    have h0 : total - current = 0 := by omega
    simp [renderLoopReports, h0]
  | succ fuel ih =>
    intro current h
    by_cases hc : current < total
    · have h2 : total - current = (total - (current + 1)) + 1 := by omega
      rw [renderLoopReports, if_pos hc, ih (current + 1) (by omega), h2,
        List.range'_succ, List.map_cons]
    · have h0 : total - current = 0 := by omega
      simp [renderLoopReports, hc, h0]

theorem chain_le_progress_map (T : ℕ) :
    ∀ (n s : ℕ), List.Chain' (· ≤ ·)
      ((List.range' s n).map fun k : ℕ => ((k : ℚ) + 1) / (T : ℚ)) := by
  intro n
  induction n with
  | zero => intro s; simp
  | succ n ih =>
    intro s
    rw [List.range'_succ, List.map_cons]
    cases n with
    | zero => simp
    | succ m =>
      rw [List.range'_succ, List.map_cons, List.chain'_cons]
      refine ⟨?_, ?_⟩
      · by_cases hT : (T : ℚ) = 0
        · simp [hT]
        · have hT' : (0 : ℚ) < (T : ℚ) := by
            rcases Nat.eq_zero_or_pos T with h | h
            · exact absurd (by simp [h]) hT
            · exact_mod_cast h
          exact (div_le_div_iff_of_pos_right hT').mpr (by push_cast; linarith)
      · have h := ih (s + 1)
        rw [List.range'_succ, List.map_cons] at h
        exact h

/-- C5: over a non-empty timeline with positive integer settings the driver
emits one report per frame, the k-th (1-based) being `k / totalFrames`; the
sequence is non-decreasing, stays in [0, 1], and ends at exactly 1. -/
theorem C5_progress_reports (fps secs n : ℕ)
    (h1 : 1 ≤ fps) (h2 : 1 ≤ secs) (h3 : 1 ≤ n) :
    (renderReports fps secs n).length = fps * secs * n ∧
      (∀ i : ℕ, i < fps * secs * n →
        (renderReports fps secs n)[i]? =
          some (((i : ℚ) + 1) / ((fps * secs * n : ℕ) : ℚ))) ∧
      List.Chain' (· ≤ ·) (renderReports fps secs n) ∧
      (∀ r ∈ renderReports fps secs n, 0 ≤ r ∧ r ≤ 1) ∧
      (renderReports fps secs n).getLast? = some 1 := by
  have hT : 0 < fps * secs * n := by positivity
  have hrw : renderReports fps secs n =
      (List.range' 0 (fps * secs * n)).map
        fun k : ℕ => ((k : ℚ) + 1) / ((fps * secs * n : ℕ) : ℚ) := by
    rw [renderReports, renderLoopReports_eq _ _ 0 (by omega)]
    norm_num
  refine ⟨by simp [hrw], ?_, by rw [hrw]; exact chain_le_progress_map _ _ 0, ?_, ?_⟩
  · intro i hi
    rw [hrw, List.getElem?_map, List.getElem?_range' 0 1 hi]
    simp
  · intro r hr
    rw [hrw] at hr
    rcases List.mem_map.mp hr with ⟨k, hk, rfl⟩
    have hk' : k < fps * secs * n := by
      have := List.mem_range'_1.mp hk
      omega
    have hTQ : (0 : ℚ) < ((fps * secs * n : ℕ) : ℚ) := by exact_mod_cast hT
    constructor
    · positivity
    · rw [div_le_one hTQ]
      have : (k : ℚ) + 1 ≤ ((fps * secs * n : ℕ) : ℚ) := by exact_mod_cast hk'
      linarith
  · rw [hrw, List.getLast?_map, List.getLast?_range', if_neg (by omega)]
    simp only [Option.map_some']
    congr 1
    have hcast : ((0 + fps * secs * n - 1 : ℕ) : ℚ) + 1 = ((fps * secs * n : ℕ) : ℚ) := by
      exact_mod_cast congrArg (fun m : ℕ => (m : ℚ))
        (by omega : (0 + fps * secs * n - 1) + 1 = fps * secs * n)
    rw [hcast, div_self (by exact_mod_cast hT.ne' : ((fps * secs * n : ℕ) : ℚ) ≠ 0)]

/-- Closed instance of `C5_progress_reports` at the smallest positive
configuration. -/
theorem C5_progress_reports_witness :
    (renderReports 1 1 1).getLast? = some 1 ∧ (renderReports 1 1 1).length = 1 :=
  ⟨(C5_progress_reports 1 1 1 (by norm_num) (by norm_num) (by norm_num)).2.2.2.2,
   (C5_progress_reports 1 1 1 (by norm_num) (by norm_num) (by norm_num)).1⟩

/-- Line 181, `Math.sin(Math.PI * Math.min(sliceProgress, 1 - sliceProgress))`. -/
noncomputable def titleOpacity (p : ℝ) : ℝ :=
  Real.sin (Real.pi * min p (1 - p))

/-- Line 182, `ctx.globalAlpha = Math.max(0.2, titleOpacity)`. -/
noncomputable def titleAlpha (p : ℝ) : ℝ :=
  max 0.2 (titleOpacity p)

/-- The per-line caption alpha actually written to `ctx.globalAlpha`
(lines 199-208): `Math.max(Math.max(0, 1 - Math.abs(p - j / Math.max(1, n - 1)) * 2.4), 0.15)`
for line `j` of `n` lines. -/
noncomputable def lineAlpha (p : ℝ) (j n : ℕ) : ℝ :=
  max (max 0 (1 - |p - (j : ℝ) / max 1 ((n : ℝ) - 1)| * 2.4)) 0.15

/-- Line 171, `oscillation = Math.sin(sliceProgress * Math.PI * 2)`. -/
noncomputable def oscillation (p : ℝ) : ℝ :=
  Real.sin (p * Real.pi * 2)

/-- Lines 221 and 227, `angle = sliceProgress * Math.PI * 2 + (i / satelliteCount) * Math.PI * 2`
with `satelliteCount = 6`. -/
noncomputable def satelliteAngle (p : ℝ) (k : ℕ) : ℝ :=
  p * Real.pi * 2 + ((k : ℝ) / 6) * Real.pi * 2

/-- The satellite dot's fill alpha
`0.3 + 0.4 * Math.sin(angle + oscillation)` (line 231), used verbatim —
without clamping — inside the `rgba(...)` fill style. -/
noncomputable def satelliteOpacity (p : ℝ) (k : ℕ) : ℝ :=
  0.3 + 0.4 * Real.sin (satelliteAngle p k + oscillation p)

/-- The sequence of values assigned to `ctx.globalAlpha` during one frame of
the loop, in source order: line 182 (title), line 187, line 208 (one per
caption line), line 217, line 225, and the final reset at line 236. -/
noncomputable def frameGlobalAlphaWrites (p : ℝ) (n : ℕ) : List ℝ :=
  ([titleAlpha p, 1] ++ ((List.range n).map fun j => lineAlpha p j n) ++ [0.4, 0.9]) ++ [1]

/-- C6: for every intra-scene progress in [0, 1], every line count `n ≥ 1`
and line index `j < n`, the caption line alpha stays in [0.15, 1] and the
title alpha stays in [0.2, 1]. -/
theorem C6_alpha_bounds (p : ℝ) (n j : ℕ)
    (hp0 : 0 ≤ p) (hp1 : p ≤ 1) (hn : 1 ≤ n) (hj : j < n) :
    lineAlpha p j n ∈ Set.Icc (0.15 : ℝ) 1 ∧ titleAlpha p ∈ Set.Icc (0.2 : ℝ) 1 := by
  refine ⟨⟨le_max_right _ _, ?_⟩, ⟨le_max_left _ _, ?_⟩⟩
  · apply max_le
    · apply max_le
      · norm_num
      · have habs : 0 ≤ |p - (j : ℝ) / max 1 ((n : ℝ) - 1)| * 2.4 := by positivity
        linarith
    · norm_num
  · apply max_le
    · norm_num
    · exact Real.sin_le_one _

/-- Closed instance of `C6_alpha_bounds` at `p = 0`, one caption line. -/
theorem C6_alpha_bounds_witness :
    lineAlpha 0 0 1 ∈ Set.Icc (0.15 : ℝ) 1 ∧ titleAlpha 0 ∈ Set.Icc (0.2 : ℝ) 1 :=
  C6_alpha_bounds 0 1 0 le_rfl (by norm_num) le_rfl (by norm_num)

/-- C1 counterexample: the satellite opacity is NOT kept within [0, 1] — at
mid-scene progress `p = 1/2` the second satellite (`k = 1`) has
`angle + oscillation = π + π/3`, so its computed opacity is
`0.3 - 0.2·√3 < 0`. -/
theorem C1_satellite_opacity_negative :
    satelliteOpacity (1 / 2) 1 < 0 := by
  have hang : satelliteAngle (1 / 2) 1 = Real.pi + Real.pi / 3 := by
    rw [satelliteAngle]
    push_cast
    ring
  have hosc : oscillation (1 / 2) = 0 := by
    rw [oscillation, show (1 / 2 : ℝ) * Real.pi * 2 = Real.pi by ring, Real.sin_pi]
  have hsin : Real.sin (Real.pi + Real.pi / 3) = -(Real.sqrt 3 / 2) := by
    rw [Real.sin_add, Real.sin_pi, Real.cos_pi, Real.sin_pi_div_three]
    ring
  have hsqrt : (1.5 : ℝ) < Real.sqrt 3 := by
    nlinarith [Real.sq_sqrt (show (0 : ℝ) ≤ 3 by norm_num), Real.sqrt_nonneg 3]
  rw [satelliteOpacity, hang, hosc, add_zero, hsin]
  nlinarith

/-- C1 (amended): the satellite opacity expression ranges over [-0.1, 0.7]
(so it can be negative and is not clamped to [0, 1] before being embedded in
the fill style), and the surface's global opacity state is reset to 1 as the
last write of every frame. -/
theorem C1_opacity_envelope_and_reset :
    (∀ (p : ℝ) (k : ℕ), satelliteOpacity p k ∈ Set.Icc (-(0.1) : ℝ) 0.7) ∧
      ∀ (p : ℝ) (n : ℕ), (frameGlobalAlphaWrites p n).getLast? = some 1 := by
  constructor
  · intro p k
    have h1 := Real.neg_one_le_sin (satelliteAngle p k + oscillation p)
    have h2 := Real.sin_le_one (satelliteAngle p k + oscillation p)
    rw [satelliteOpacity]
    constructor <;> nlinarith
  · intro p n
    rw [frameGlobalAlphaWrites]
    exact List.getLast?_concat _

/-- The runtime lookup `STYLE_PALETTES[style]` for an arbitrary (string)
style identifier, as JavaScript evaluates it on the record of lines 30-67:
a known key yields its palette list, any other key yields `undefined`
(modelled as `none`). -/
def stylePalettesByName (name : String) : Option (List (String × String)) :=
  if name = "cosmic" then some (STYLE_PALETTES .cosmic)
  else if name = "tropical" then some (STYLE_PALETTES .tropical)
  else if name = "noir" then some (STYLE_PALETTES .noir)
  else if name = "sunrise" then some (STYLE_PALETTES .sunrise)
  else if name = "aqua" then some (STYLE_PALETTES .aqua)
  else if name = "mono" then some (STYLE_PALETTES .mono)
  else none

/-- Function `createPaletteTimeline` (lines 76-83) on a raw style identifier, with
JavaScript's runtime semantics made explicit: an unknown key leaves
`palettes` `undefined`, and the first execution of the `map` callback then
throws a `TypeError` on `palettes.length`; with an empty sentence list the
callback never runs, so the empty timeline is returned. -/
def createPaletteTimelineDyn (sentences : List String) (styleName : String) :
    Except String (List TimelineSlice) :=
  match stylePalettesByName styleName with
  | some palettes => .ok (createPaletteTimelineAux palettes sentences 0)
  | none =>
    match sentences with
    | [] => .ok []
    | _ :: _ => .error "TypeError: Cannot read properties of undefined"

/-- C8 counterexample: the unknown style identifier "neon" with an empty
sentence list is not rejected — the (empty) timeline is built successfully,
so rejection does not happen before timeline construction for every unknown
style. -/
theorem C8_unknown_style_not_always_rejected :
    stylePalettesByName "neon" = none ∧
      createPaletteTimelineDyn [] "neon" = Except.ok [] := by
  constructor <;> rfl

/-- C8 (amended): an unknown style identifier is never silently replaced by a
default: with a non-empty sentence list the build throws a `TypeError` before
any timeline slice is produced, and with an empty sentence list the empty
timeline is returned without the style ever being consulted. -/
theorem C8_unknown_style_behaviour (styleName : String) (sentences : List String)
    (h : stylePalettesByName styleName = none) :
    (sentences = [] → createPaletteTimelineDyn sentences styleName = Except.ok []) ∧
      (sentences ≠ [] → createPaletteTimelineDyn sentences styleName =
        Except.error "TypeError: Cannot read properties of undefined") := by
  rw [createPaletteTimelineDyn.eq_def, h]
  constructor
  · intro h2
    subst h2
    rfl
  · intro h2
    cases sentences with
    | nil => exact absurd rfl h2
    | cons a t => rfl

/-- Closed instance of `C8_unknown_style_behaviour` at the unknown style
"neon" and a one-sentence timeline. -/
theorem C8_unknown_style_behaviour_witness :
    createPaletteTimelineDyn ["a"] "neon" =
      Except.error "TypeError: Cannot read properties of undefined" :=
  (C8_unknown_style_behaviour "neon" ["a"] (by rfl)).2 (by simp)

/-- Object-URL lifecycle events observable from the `Home` component. -/
inductive UrlEvent
  | revoke (url : String)
  | create (url : String)
deriving DecidableEq

/-- The `videoUrl` React state as the URL-lifecycle model sees it:
`committed` is the last committed state (what effect closures have
captured), `pending` the latest `setVideoUrl` argument not yet flushed, and
`events` the chronological `URL.revokeObjectURL` / `URL.createObjectURL`
calls. -/
structure UrlState where
  committed : Option String
  pending : Option (Option String)
  events : List UrlEvent

/-- Call `setVideoUrl(v)`: React records the pending state update. -/
def setVideoUrl (v : Option String) (s : UrlState) : UrlState :=
  { s with pending := some v }

/-- A React commit: the pending `videoUrl` value is committed; when the value
changed, the previous effect's cleanup (lines 275-281) runs first and revokes
the previously committed URL if there was one. -/
def flushVideoUrl (s : UrlState) : UrlState :=
  match s.pending with
  | none => s
  | some v =>
    if v = s.committed then { s with pending := none }
    else
      { committed := v, pending := none,
        events := s.events ++
          (match s.committed with
           | some u => [UrlEvent.revoke u]
           | none => []) }

/-- The URL-lifecycle events of one successful `handleGenerate` run
(lines 285-346) started while `videoUrl = prev`: `setVideoUrl(null)` at line
288; the explicit `URL.revokeObjectURL(videoUrl)` guarded by `if (videoUrl)`
at lines 294-297 (run synchronously with the closure value captured at
invocation, before React commits); the commit at the first suspension point
of the awaited render; then `URL.createObjectURL(blob)` and
`setVideoUrl(...)` at line 346, followed by its commit. -/
def handleGenerateUrlEvents (prev : Option String) (newUrl : String) : List UrlEvent :=
  let s0 : UrlState := ⟨prev, none, []⟩
  let s1 := setVideoUrl none s0
  let s2 :=
    match prev with
    | some u => setVideoUrl none { s1 with events := s1.events ++ [UrlEvent.revoke u] }
    | none => s1
  let s3 := flushVideoUrl s2
  let s4 := setVideoUrl (some newUrl) { s3 with events := s3.events ++ [UrlEvent.create newUrl] }
  (flushVideoUrl s4).events

/-- C7 counterexample: starting a generate run while a previous object URL
exists revokes that URL twice (explicitly in `handleGenerate` and again in
the effect cleanup when the nulled state commits), not exactly once. -/
theorem C7_prior_url_revoked_twice :
    (handleGenerateUrlEvents (some "blob:old") "blob:new").count
        (UrlEvent.revoke "blob:old") = 2 ∧
      (handleGenerateUrlEvents (some "blob:old") "blob:new").count
        (UrlEvent.revoke "blob:old") ≠ 1 := by
  constructor <;> decide

/-- C7 (amended): the prior URL is revoked exactly twice — once by the
explicit revoke in `handleGenerate`, once by the effect cleanup — and both
revocations happen before the new object URL is created; with no prior URL
nothing is revoked. -/
theorem C7_url_lifecycle (u v : String) :
    handleGenerateUrlEvents (some u) v =
        [UrlEvent.revoke u, UrlEvent.revoke u, UrlEvent.create v] ∧
      handleGenerateUrlEvents none v = [UrlEvent.create v] := by
  constructor <;> rfl

/-- The `GenerationPhase` union type (line 5). -/
inductive GenerationPhase
  | idle | preparing | rendering | encoding | complete | error
deriving DecidableEq

/-- The phase transitions the `Home` component can perform: `handleGenerate`
(lines 285-352) moves to `preparing` — it is reachable whenever the Render
control is enabled, i.e. whenever the phase is not `rendering` or `encoding`
(line 494) — then `rendering`, `encoding` and `complete` in order; its
`catch` moves any state reached after line 290 (all non-idle states) to
`error`; `reset` (lines 354-359) moves any state to `idle`. -/
inductive PhaseStep : GenerationPhase → GenerationPhase → Prop
  | generate (p : GenerationPhase)
      (h1 : p ≠ .rendering) (h2 : p ≠ .encoding) : PhaseStep p .preparing
  | startRender : PhaseStep .preparing .rendering
  | finishRender : PhaseStep .rendering .encoding
  | finishEncode : PhaseStep .encoding .complete
  | fail (p : GenerationPhase) (h : p ≠ .idle) : PhaseStep p .error
  | reset (p : GenerationPhase) : PhaseStep p .idle

/-- The transition relation the claim describes: only the forward chain
`idle → preparing → rendering → encoding → complete`, plus entry into
`error` from any non-idle state. -/
def claimAllowedStep (p q : GenerationPhase) : Prop :=
  (p = .idle ∧ q = .preparing) ∨ (p = .preparing ∧ q = .rendering) ∨
    (p = .rendering ∧ q = .encoding) ∨ (p = .encoding ∧ q = .complete) ∨
    (q = .error ∧ p ≠ .idle)

/-- C9 counterexample: starting a new render after a completed one is a
reachable transition `complete → preparing` that the claimed transition
relation does not allow. -/
theorem C9_restart_outside_claimed_chain :
    PhaseStep .complete .preparing ∧ ¬claimAllowedStep .complete .preparing :=
  ⟨PhaseStep.generate .complete (by simp) (by simp), by simp [claimAllowedStep]⟩

/-- C9 (amended): the phase machine follows the claimed forward chain with
`error` reachable from every non-idle state, and additionally `reset` moves
every state to `idle` and a new generate action moves every state with the
Render control enabled (not `rendering`, not `encoding`) to `preparing`;
nothing else is reachable. -/
theorem C9_phase_transitions (p q : GenerationPhase) :
    PhaseStep p q ↔
      (claimAllowedStep p q ∨ q = .idle ∨
        (q = .preparing ∧ p ≠ .rendering ∧ p ≠ .encoding)) := by
  constructor
  · intro h
    cases h with
    | generate p h1 h2 => exact Or.inr (Or.inr ⟨rfl, h1, h2⟩)
    | startRender => exact Or.inl (Or.inr (Or.inl ⟨rfl, rfl⟩))
    | finishRender => exact Or.inl (Or.inr (Or.inr (Or.inl ⟨rfl, rfl⟩)))
    | finishEncode => exact Or.inl (Or.inr (Or.inr (Or.inr (Or.inl ⟨rfl, rfl⟩))))
    | fail p h => exact Or.inl (Or.inr (Or.inr (Or.inr (Or.inr ⟨rfl, h⟩))))
    | reset p => exact Or.inr (Or.inl rfl)
  · intro h
    rcases h with hc | hq | ⟨hq, h1, h2⟩
    · rcases hc with ⟨hp, hq⟩ | ⟨hp, hq⟩ | ⟨hp, hq⟩ | ⟨hp, hq⟩ | ⟨hq, hp⟩
      · subst hp; subst hq
        exact PhaseStep.generate _ (by simp) (by simp)
      · subst hp; subst hq
        exact PhaseStep.startRender
      · subst hp; subst hq
        exact PhaseStep.finishRender
      · subst hp; subst hq
        exact PhaseStep.finishEncode
      · subst hq
        exact PhaseStep.fail p hp
    · subst hq
      exact PhaseStep.reset p
    · subst hq
      exact PhaseStep.generate p h1 h2


end NebulaStudio
